import Mathlib

/-!
Verification of the magneturi Go package (come-maiz/magneturi).

The embedding works over `Str := List Char`.  Go's string helpers
(`strings.HasPrefix`, `strings.TrimPrefix`, `strings.Split`,
`strings.SplitN` with limit 2, `strings.Contains`, `strconv.Atoi`,
`fmt.Sprintf "%d"`) are modelled by executable Lean functions below, and
the package's own functions are translated one-to-one from
`magneturi.go`.  Go's `(value, error)` returns are modelled with
`Except`/`Option`.
-/

namespace MagnetUri

/-- Strings are modelled as lists of characters. -/
abbrev Str := List Char

/-- Go `strings.HasPrefix s p`. -/
def hasPfx : Str → Str → Bool
  | _, [] => true
  | [], _ :: _ => false
  | c :: s, d :: p => c == d && hasPfx s p

/-- Go `strings.TrimPrefix s p`: drops `p` when it is a prefix, else returns `s`. -/
def trimPfx (s p : Str) : Str :=
  if hasPfx s p then s.drop p.length else s

/-- Go `strings.Split s sep` for a single-character separator `sep`
(always returns at least one fragment; adjacent separators yield empty
fragments). -/
def splitOnChar (sep : Char) : Str → List Str
  | [] => [[]]
  | c :: rest =>
    if c == sep then [] :: splitOnChar sep rest
    else
      match splitOnChar sep rest with
      | [] => [[c]]
      | f :: fs => (c :: f) :: fs

/-- Go `strings.SplitN s sep 2` for a single-character separator: splits at
the first occurrence only, returning one or two pieces. -/
def splitN2 (sep : Char) : Str → List Str
  | [] => [[]]
  | c :: rest =>
    if c == sep then [[], rest]
    else
      match splitN2 sep rest with
      | [] => [[c]]
      | f :: fs => (c :: f) :: fs

/-- Helper for `atoi`: reads decimal digits, failing on any non-digit. -/
def parseDigitsAux : Str → Nat → Option Nat
  | [], acc => some acc
  | c :: rest, acc =>
    if c.isDigit then parseDigitsAux rest (acc * 10 + (c.toNat - 48))
    else none

/-- Go `math.MaxInt64`, the largest value of Go's 64-bit `int`. -/
def maxInt64 : Nat := 9223372036854775807

/-- Go `strconv.Atoi` on a 64-bit platform: optional sign followed by at
least one decimal digit.  It fails on empty input, on any non-digit
(`ErrSyntax`), and on values outside `[-2^63, 2^63 - 1]` (`ErrRange`).
Go returns a clamped value together with `ErrRange`, but every caller in
this package discards the value when the error is non-nil, so the
failing pair is collapsed to `none`. -/
def atoi : Str → Option Int
  | [] => none
  | '-' :: rest =>
    match rest with
    | [] => none
    | _ :: _ => (parseDigitsAux rest 0).bind
        (fun n => if n ≤ maxInt64 + 1 then some (-(n : Int)) else none)
  | '+' :: rest =>
    match rest with
    | [] => none
    | _ :: _ => (parseDigitsAux rest 0).bind
        (fun n => if n ≤ maxInt64 then some (n : Int) else none)
  | s => (parseDigitsAux s 0).bind
      (fun n => if n ≤ maxInt64 then some (n : Int) else none)

/-- Fuel-driven digit expansion; `fuel` larger than `n` suffices. -/
def natDigitsAux : Nat → Nat → Str
  | 0, _ => []
  | fuel + 1, n =>
    if n < 10 then [Char.ofNat (48 + n)]
    else natDigitsAux fuel (n / 10) ++ [Char.ofNat (48 + n % 10)]

/-- Decimal digits of a natural number, most significant first. -/
def natDigits (n : Nat) : Str := natDigitsAux (n + 1) n

/-- Go `fmt.Sprintf "%d"` on an integer. -/
def intRepr (i : Int) : Str :=
  if i < 0 then '-' :: natDigits (-i).toNat else natDigits i.toNat

/-- Go `strings.Join parts "&"` for the serializer. -/
def joinAmp : List Str → Str
  | [] => []
  | [f] => f
  | f :: fs => f ++ '&' :: joinAmp fs

/-! ## Constants (magneturi.go lines 28–34) -/

def magnetURISchema : Str := "magnet:?".toList
def exactTopicPfx : Str := "xt".toList
def displayNamePfx : Str := "dn".toList
def keywordTopicPfx : Str := "kt".toList
def manifestTopicPfx : Str := "mt".toList

/-! ## Data model (magneturi.go lines 36–46) -/

/-- Go struct `Parameter{Prefix string; Index int; Value string}`.
`Index = 0` means there is no index specified for the parameter. -/
structure Parameter where
  Pfx : Str
  Index : Int
  Value : Str
  deriving Repr, DecidableEq

/-- Go struct `MagnetURI{Parameters []Parameter}`. -/
structure MagnetURI where
  Parameters : List Parameter
  deriving Repr, DecidableEq

/-- Errors produced by `Parse` (Go wraps these as `errors.New` messages). -/
inductive ParseError where
  /-- "The string doesn't start with the Magnet URI schema prefix %q" -/
  | missingSchema (expected : Str)
  /-- "Parameter without prefix: %q" (fragment with no `=`) -/
  | parameterWithoutPfx (fragment : Str)
  /-- "Wrong parameter prefix: %q; %s" (the dotted index failed `Atoi`;
  the second field records the suffix `Atoi` rejected) -/
  | wrongParameterPfx (shown : Str) (badIndex : Str)
  /-- "Unknown parameter prefix: %q" -/
  | unknownPfx (pfx : Str)
  deriving Repr, DecidableEq

/-! ## Accessors (magneturi.go lines 48–76) -/

def MagnetURI.parametersByPfx (uri : MagnetURI) (pfx : Str) : List Parameter :=
  uri.Parameters.filter (fun p => p.Pfx == pfx)

def MagnetURI.exactTopics (uri : MagnetURI) : List Parameter :=
  uri.parametersByPfx exactTopicPfx

def MagnetURI.displayNames (uri : MagnetURI) : List Parameter :=
  uri.parametersByPfx displayNamePfx

def MagnetURI.keywordTopics (uri : MagnetURI) : List Parameter :=
  uri.parametersByPfx keywordTopicPfx

def MagnetURI.manifestTopics (uri : MagnetURI) : List Parameter :=
  uri.parametersByPfx manifestTopicPfx

/-! ## Equality (magneturi.go lines 78–105) -/

def containsParameter (list : List Parameter) (parameter : Parameter) : Bool :=
  list.any (fun element =>
    parameter.Pfx == element.Pfx &&
    parameter.Index == element.Index &&
    parameter.Value == element.Value)

def compareParameters (first second : List Parameter) : Bool :=
  if first.length == second.length then
    first.all (fun parameter => containsParameter second parameter)
  else false

def MagnetURI.Equal (uri x : MagnetURI) : Bool :=
  compareParameters uri.Parameters x.Parameters

/-! ## Parser (magneturi.go lines 107–173) -/

def isValidPfx (pfx : Str) : Bool :=
  pfx == exactTopicPfx || pfx == displayNamePfx ||
    pfx == keywordTopicPfx || pfx == manifestTopicPfx

def addParameterToMagnetURI (pfx : Str) (index : Int) (value : Str)
    (uri : MagnetURI) : Except ParseError MagnetURI :=
  if !isValidPfx pfx then .error (.unknownPfx pfx)
  else .ok ⟨uri.Parameters ++ [⟨pfx, index, value⟩]⟩

/-- `splitPrefixIndex` in the Go source: on a dotted key the part after the
first dot must pass `Atoi`; on `Atoi` failure Go returns prefix `""` and
the error.  Result: `(prefix, index)` or the rejected index string. -/
def splitPfxIndex (pfx : Str) : Except Str (Str × Int) :=
  if pfx.contains '.' then
    match splitN2 '.' pfx with
    | [l, r] =>
      match atoi r with
      | none => .error r
      | some index => .ok (l, index)
    | _ => .ok (pfx, 0)
  else .ok (pfx, 0)

def parseParameter (parameter : Str) (uri : MagnetURI) :
    Except ParseError MagnetURI :=
  match splitN2 '=' parameter with
  | [key, value] =>
    match splitPfxIndex key with
    | .error bad => .error (.wrongParameterPfx [] bad)
    | .ok (pfx, index) => addParameterToMagnetURI pfx index value uri
  | _ => .error (.parameterWithoutPfx parameter)

/-- The Go loop in `parseParameters`: both the URI and the error are
overwritten on every iteration; after an error the accumulator is reset
to the empty `MagnetURI` and the loop continues with the next fragment. -/
def parseParameters (parameters : List Str) : MagnetURI × Option ParseError :=
  parameters.foldl
    (fun acc parameter =>
      match parseParameter parameter acc.1 with
      | .ok uri => (uri, none)
      | .error e => (⟨[]⟩, some e))
    (⟨[]⟩, none)

/-- Go `Parse`: returns the `(MagnetURI, error)` pair. -/
def Parse (rawMagnetURI : Str) : MagnetURI × Option ParseError :=
  if hasPfx rawMagnetURI magnetURISchema then
    parseParameters (splitOnChar '&' (trimPfx rawMagnetURI magnetURISchema))
  else (⟨[]⟩, some (.missingSchema magnetURISchema))

/-! ## Serializer (magneturi.go lines 175–214) -/

/-- Go `Parameter.String`: renders the stored index when it is nonzero. -/
def Parameter.toStr (parameter : Parameter) : Str :=
  if parameter.Index != 0 then
    parameter.Pfx ++ '.' :: intRepr parameter.Index ++ '=' :: parameter.Value
  else parameter.Pfx ++ '=' :: parameter.Value

def MagnetURI.hasParameters (uri : MagnetURI) : Bool :=
  if uri.exactTopics.length != 0 || uri.displayNames.length != 0 ||
      uri.keywordTopics.length != 0 || uri.manifestTopics.length != 0 then
    true
  else false

def MagnetURI.parameterStrings (uri : MagnetURI) : List Str :=
  uri.Parameters.foldl (fun acc parameter => acc ++ [parameter.toStr]) []

/-- The error message of Go `MagnetURI.String` on an empty URI. -/
def noParametersMsg : Str := "The Magnet URI has no parameters.".toList

/-- Go `MagnetURI.String`: returns the `(string, error)` pair. -/
def MagnetURI.toStr (uri : MagnetURI) : Str × Option Str :=
  if !uri.hasParameters then ([], some noParametersMsg)
  else (magnetURISchema ++ joinAmp uri.parameterStrings, none)

/-! ## Fragment-level helpers, defined from the parser itself, used to
characterize `parseParameters` fragment by fragment -/

/-- Whether a single fragment parses on its own. -/
def fragOk (fragment : Str) : Bool :=
  match parseParameter fragment ⟨[]⟩ with
  | .ok _ => true
  | .error _ => false

/-- The parameters a single fragment contributes. -/
def fragParams (fragment : Str) : List Parameter :=
  match parseParameter fragment ⟨[]⟩ with
  | .ok uri => uri.Parameters
  | .error _ => []

/-- The error a single fragment produces, if any. -/
def fragErr (fragment : Str) : Option ParseError :=
  match parseParameter fragment ⟨[]⟩ with
  | .ok _ => none
  | .error e => some e

/-- The error of the last fragment of the list, if any. -/
def lastFragErr (fragments : List Str) : Option ParseError :=
  match fragments.getLast? with
  | none => none
  | some fragment => fragErr fragment

/-- The longest suffix of fragments all of which parse. -/
def validSuffix (fragments : List Str) : List Str :=
  (fragments.reverse.takeWhile fragOk).reverse

end MagnetUri

namespace MagnetUri

example : Parse "magnet:?xt=urn:sha1:ABC".toList =
    (⟨[⟨"xt".toList, 0, "urn:sha1:ABC".toList⟩]⟩, none) := by decide

example : Parse "magnet:?xt.1=A&xt.2=B".toList =
    (⟨[⟨"xt".toList, 1, "A".toList⟩, ⟨"xt".toList, 2, "B".toList⟩]⟩, none) := by
  decide

example : Parse "nope".toList = (⟨[]⟩, some (.missingSchema magnetURISchema)) := by
  decide

example : Parse "magnet:?unknown=value".toList =
    (⟨[]⟩, some (.unknownPfx "unknown".toList)) := by decide

example : Parse "magnet:?parameterwithoutprefix".toList =
    (⟨[]⟩, some (.parameterWithoutPfx "parameterwithoutprefix".toList)) := by
  decide

example : MagnetURI.toStr ⟨[⟨"xt".toList, 1, "A".toList⟩, ⟨"xt".toList, 2, "B".toList⟩]⟩ =
    ("magnet:?xt.1=A&xt.2=B".toList, none) := by decide

example : MagnetURI.toStr ⟨[]⟩ = ([], some noParametersMsg) := by decide

example : Parse "magnet:?bad&xt=a".toList =
    (⟨[⟨"xt".toList, 0, "a".toList⟩]⟩, none) := by decide

example : Parse "magnet:?xt.-1=v".toList =
    (⟨[⟨"xt".toList, -1, "v".toList⟩]⟩, none) := by decide

/-! ## Equality -/

theorem paramEqb_iff (p e : Parameter) :
    (p.Pfx == e.Pfx && (p.Index == e.Index && p.Value == e.Value)) = true ↔
      p = e := by
  rcases p with ⟨a, b, c⟩
  rcases e with ⟨a', b', c'⟩
  simp [Parameter.mk.injEq]

theorem containsParameter_eq_mem (l : List Parameter) (p : Parameter) :
    containsParameter l p = true ↔ p ∈ l := by
  unfold containsParameter
  rw [List.any_eq_true]
  constructor
  · rintro ⟨e, he, h⟩
    rw [Bool.and_assoc, paramEqb_iff] at h
    rw [h]; exact he
  · intro hp
    refine ⟨p, hp, ?_⟩
    rw [Bool.and_assoc, paramEqb_iff]

theorem compareParameters_self (ps : List Parameter) :
    compareParameters ps ps = true := by
  unfold compareParameters
  simp only [beq_self_eq_true, if_true, List.all_eq_true]
  intro p hp
  exact (containsParameter_eq_mem ps p).mpr hp

/-- C3 (amended): `Equal` holds exactly when the two parameter lists have
the same length and every record of the first occurs somewhere in the
second; this is order-insensitive and sensitive to every field, but it is
not multiplicity-safe (see the counterexample `equal_multiset_cex`). -/
theorem equal_iff_length_and_mem (a b : MagnetURI) :
    a.Equal b = true ↔
      (a.Parameters.length = b.Parameters.length ∧
        ∀ p ∈ a.Parameters, p ∈ b.Parameters) := by
  unfold MagnetURI.Equal compareParameters
  by_cases h : a.Parameters.length = b.Parameters.length
  · simp [h, List.all_eq_true, containsParameter_eq_mem]
  · simp [h]

/-- C3 witness: the characterization applied at a concrete pair. -/
theorem equal_iff_length_and_mem_witness :
    MagnetURI.Equal ⟨[⟨"xt".toList, 0, "a".toList⟩]⟩
      ⟨[⟨"xt".toList, 0, "a".toList⟩]⟩ = true :=
  (equal_iff_length_and_mem ⟨[⟨"xt".toList, 0, "a".toList⟩]⟩
    ⟨[⟨"xt".toList, 0, "a".toList⟩]⟩).mpr ⟨by decide, by decide⟩

/-- C3 counterexample: `Equal` accepts `[P, P]` versus `[P, Q]`, which are
not equal as multisets, so `Equal` is not multiset-based equality. -/
theorem equal_multiset_cex :
    MagnetURI.Equal
        ⟨[⟨"xt".toList, 0, "a".toList⟩, ⟨"xt".toList, 0, "a".toList⟩]⟩
        ⟨[⟨"xt".toList, 0, "a".toList⟩, ⟨"xt".toList, 0, "b".toList⟩]⟩ = true ∧
      ¬ List.Perm
        [(⟨"xt".toList, 0, "a".toList⟩ : Parameter), ⟨"xt".toList, 0, "a".toList⟩]
        [⟨"xt".toList, 0, "a".toList⟩, ⟨"xt".toList, 0, "b".toList⟩] := by
  constructor
  · decide
  · intro hperm
    have h2 : (⟨"xt".toList, 0, "b".toList⟩ : Parameter) ∈
        ([⟨"xt".toList, 0, "a".toList⟩, ⟨"xt".toList, 0, "b".toList⟩] :
          List Parameter) := by decide
    have h3 := hperm.mem_iff.mpr h2
    exact absurd h3 (by decide)

/-- C10: `Equal` is reflexive for every MagnetURI, including ones whose
parameter list contains duplicate records. -/
theorem equal_reflexive (u : MagnetURI) : u.Equal u = true :=
  compareParameters_self u.Parameters

/-! ## Serializer -/

theorem parameterStrings_eq_map (u : MagnetURI) :
    u.parameterStrings = u.Parameters.map Parameter.toStr := by
  have h : ∀ (ps : List Parameter) (acc : List Str),
      ps.foldl (fun a parameter => a ++ [parameter.toStr]) acc =
        acc ++ ps.map Parameter.toStr := by
    intro ps
    induction ps with
    | nil => intro acc; simp
    | cons p rest ih => intro acc; simp [ih]
  simpa [MagnetURI.parameterStrings] using h u.Parameters []

theorem hasParameters_false_iff (u : MagnetURI) :
    u.hasParameters = false ↔
      (u.exactTopics = [] ∧ u.displayNames = [] ∧ u.keywordTopics = [] ∧
        u.manifestTopics = []) := by
  unfold MagnetURI.hasParameters
  by_cases h : (u.exactTopics.length != 0 || u.displayNames.length != 0 ||
      u.keywordTopics.length != 0 || u.manifestTopics.length != 0) = true
  · rw [if_pos h]
    simp only [Bool.or_eq_true, bne_iff_ne, ne_eq, List.length_eq_zero] at h
    constructor
    · intro hf; exact absurd hf (by simp)
    · rintro ⟨h1, h2, h3, h4⟩
      rcases h with ((h | h) | h) | h <;> simp_all
  · rw [if_neg h]
    simp only [Bool.or_eq_true, not_or, bne_iff_ne, ne_eq, not_not,
      List.length_eq_zero] at h
    obtain ⟨⟨⟨h1, h2⟩, h3⟩, h4⟩ := h
    simp [h1, h2, h3, h4]

/-- C7: serialization fails with the no-parameters error and yields the
empty string exactly when the URI has no parameters in any of the four
prefix categories; otherwise it returns a string and a nil error. -/
theorem toStr_noParameters_iff (u : MagnetURI) :
    (u.toStr = ([], some noParametersMsg) ↔
      (u.exactTopics = [] ∧ u.displayNames = [] ∧ u.keywordTopics = [] ∧
        u.manifestTopics = [])) ∧
    (u.toStr.2 = none ↔
      ¬(u.exactTopics = [] ∧ u.displayNames = [] ∧ u.keywordTopics = [] ∧
        u.manifestTopics = [])) := by
  rw [← hasParameters_false_iff]
  unfold MagnetURI.toStr
  cases hb : u.hasParameters
  · simp
  · simp

/-- C7 witness: the empty URI fails with the no-parameters error. -/
theorem toStr_noParameters_iff_witness :
    MagnetURI.toStr ⟨[]⟩ = ([], some noParametersMsg) :=
  (toStr_noParameters_iff ⟨[]⟩).1.mpr ⟨by decide, by decide, by decide, by decide⟩

/-- `MagnetURI.toStr` on a URI with parameters: the schema prefix followed
by each stored parameter rendered in stored order, joined by `&`. -/
theorem toStr_spec (u : MagnetURI) (h : u.hasParameters = true) :
    u.toStr =
      (magnetURISchema ++ joinAmp (u.Parameters.map Parameter.toStr), none) := by
  unfold MagnetURI.toStr
  rw [h]
  simp [parameterStrings_eq_map]

/-- C4 (amended): serialization does not group or re-index; it renders the
parameters in stored order, each with its stored index (`Parameter.toStr`
prints `pfx.i=value` when the stored index `i` is nonzero and `pfx=value`
when it is zero). -/
theorem toStr_renders_stored (u : MagnetURI) (h : u.hasParameters = true) :
    u.toStr =
      (magnetURISchema ++ joinAmp (u.Parameters.map Parameter.toStr), none) :=
  toStr_spec u h

/-- C4 witness: the stored-order rendering applied at a concrete URI. -/
theorem toStr_renders_stored_witness :
    MagnetURI.toStr ⟨[⟨"dn".toList, 3, "n".toList⟩]⟩ =
      (magnetURISchema ++
        joinAmp ([(⟨"dn".toList, 3, "n".toList⟩ : Parameter)].map Parameter.toStr),
        none) :=
  toStr_renders_stored ⟨[⟨"dn".toList, 3, "n".toList⟩]⟩ (by decide)

/-- C4 counterexample: a single-element `xt` group whose element stores
index 5 is rendered with that stored index (`xt.5=a`), not unindexed
(`xt=a`) as the claim states. -/
theorem toStr_reindex_cex :
    MagnetURI.toStr ⟨[⟨"xt".toList, 5, "a".toList⟩]⟩ =
      ("magnet:?xt.5=a".toList, none) ∧
      "magnet:?xt.5=a".toList ≠ "magnet:?xt=a".toList := by decide

/-! ## Parser: splitting lemmas -/

theorem splitN2_not_mem (sep : Char) (s : Str) (h : sep ∉ s) :
    splitN2 sep s = [s] := by
  induction s with
  | nil => rfl
  | cons c rest ih =>
    simp only [List.mem_cons, not_or] at h
    have hc : (c == sep) = false := by
      rw [beq_eq_false_iff_ne]; exact fun hcc => h.1 hcc.symm
    have ih2 := ih h.2
    simp [splitN2, hc, ih2]

theorem splitN2_append (sep : Char) (l r : Str) (hl : sep ∉ l) :
    splitN2 sep (l ++ sep :: r) = [l, r] := by
  induction l with
  | nil => simp [splitN2]
  | cons c rest ih =>
    simp only [List.mem_cons, not_or] at hl
    have hc : (c == sep) = false := by
      rw [beq_eq_false_iff_ne]; exact fun hcc => hl.1 hcc.symm
    have ih2 := ih hl.2
    simp [splitN2, hc, ih2]

theorem splitOnChar_not_mem (sep : Char) (s : Str) (h : sep ∉ s) :
    splitOnChar sep s = [s] := by
  induction s with
  | nil => rfl
  | cons c rest ih =>
    simp only [List.mem_cons, not_or] at h
    have hc : (c == sep) = false := by
      rw [beq_eq_false_iff_ne]; exact fun hcc => h.1 hcc.symm
    have ih2 := ih h.2
    simp [splitOnChar, hc, ih2]

theorem splitOnChar_append (sep : Char) (f rest : Str) (hf : sep ∉ f) :
    splitOnChar sep (f ++ sep :: rest) = f :: splitOnChar sep rest := by
  induction f with
  | nil => simp [splitOnChar]
  | cons c cs ih =>
    simp only [List.mem_cons, not_or] at hf
    have hc : (c == sep) = false := by
      rw [beq_eq_false_iff_ne]; exact fun hcc => hf.1 hcc.symm
    have ih2 := ih hf.2
    simp [splitOnChar, hc, ih2]

theorem splitPfxIndex_no_dot (l : Str) (hl : '.' ∉ l) :
    splitPfxIndex l = .ok (l, 0) := by
  have hcl : (l.contains '.') = false := by
    simpa using hl
  unfold splitPfxIndex
  rw [hcl]
  simp

theorem splitPfxIndex_dotted (l r : Str) (hl : '.' ∉ l) :
    splitPfxIndex (l ++ '.' :: r) =
      (match atoi r with
        | none => Except.error r
        | some i => Except.ok (l, i)) := by
  have hcl2 : ((l ++ '.' :: r).contains '.') = true := by
    simp
  unfold splitPfxIndex
  rw [hcl2]
  simp only [if_true]
  rw [splitN2_append '.' l r hl]

/-- C6 (amended): a key with no dot yields index 0; a dotted key stores
whatever integer `atoi` reads from the suffix after the first dot (which
may be zero or negative), and is rejected with the invalid-index error
exactly when that suffix is not a decimal integer. -/
theorem splitPfxIndex_spec (l r : Str) (hl : '.' ∉ l) :
    splitPfxIndex l = .ok (l, 0) ∧
      splitPfxIndex (l ++ '.' :: r) =
        (match atoi r with
          | none => Except.error r
          | some i => Except.ok (l, i)) :=
  ⟨splitPfxIndex_no_dot l hl, splitPfxIndex_dotted l r hl⟩

/-- C6 witness: the characterization applied at key `xt` and suffix `7`. -/
theorem splitPfxIndex_spec_witness :
    splitPfxIndex "xt".toList = .ok ("xt".toList, 0) ∧
      splitPfxIndex ("xt".toList ++ '.' :: "7".toList) =
        (match atoi "7".toList with
          | none => Except.error "7".toList
          | some i => Except.ok ("xt".toList, i)) :=
  splitPfxIndex_spec "xt".toList "7".toList (by decide)

/-- C6 counterexample: `magnet:?xt.-1=v` parses successfully and stores
index -1, which is neither 0 nor ≥ 1, even though `-1` is not a positive
integer. -/
theorem parse_negative_index_cex :
    Parse "magnet:?xt.-1=v".toList =
      (⟨[⟨"xt".toList, -1, "v".toList⟩]⟩, none) ∧
      ¬((-1 : Int) = 0 ∨ 1 ≤ (-1 : Int)) := by decide

/-! ## Parser: the missing-schema error -/

theorem parseParameter_not_missingSchema (fragment : Str) (uri : MagnetURI)
    (e : ParseError) (h : parseParameter fragment uri = .error e) :
    ∀ s, e ≠ .missingSchema s := by
  intro s
  unfold parseParameter at h
  split at h
  · split at h
    · simp only [Except.error.injEq] at h
      subst h
      simp
    · unfold addParameterToMagnetURI at h
      split at h
      · simp only [Except.error.injEq] at h
        subst h
        simp
      · simp at h
  · simp only [Except.error.injEq] at h
    subst h
    simp

theorem parseParameters_not_missingSchema (fragments : List Str) :
    ∀ s, (parseParameters fragments).2 ≠ some (.missingSchema s) := by
  unfold parseParameters
  suffices h : ∀ (init : MagnetURI × Option ParseError),
      (∀ s, init.2 ≠ some (.missingSchema s)) →
      ∀ s, (fragments.foldl
        (fun acc parameter =>
          match parseParameter parameter acc.1 with
          | .ok uri => (uri, none)
          | .error e => (⟨[]⟩, some e)) init).2 ≠ some (.missingSchema s) by
    exact h (⟨[]⟩, none) (by simp)
  induction fragments with
  | nil => intro init hinit; exact hinit
  | cons f fs ih =>
    intro init hinit s
    rw [List.foldl_cons]
    apply ih
    intro s'
    cases hp : parseParameter f init.1 with
    | ok uri => simp [hp]
    | error e =>
      simp only [hp, ne_eq, Option.some.injEq]
      exact fun hc => parseParameter_not_missingSchema f init.1 e hp s' hc

/-- C8: without the schema prefix, Parse fails with the missing-schema
error carrying the expected prefix and returns the empty MagnetURI; with
the prefix present, Parse never returns the missing-schema error. -/
theorem parse_missingSchema_spec (raw : Str) :
    (hasPfx raw magnetURISchema = false →
      Parse raw = (⟨[]⟩, some (.missingSchema magnetURISchema))) ∧
    (hasPfx raw magnetURISchema = true →
      ∀ s, (Parse raw).2 ≠ some (.missingSchema s)) := by
  constructor
  · intro h
    unfold Parse
    rw [h]
    simp
  · intro h s
    unfold Parse
    rw [h]
    simp only [if_true]
    exact parseParameters_not_missingSchema _ s

/-- C8 witness: a string without the prefix fails with the missing-schema
error; a string with the prefix never produces that error. -/
theorem parse_missingSchema_spec_witness :
    Parse "x".toList = (⟨[]⟩, some (.missingSchema magnetURISchema)) ∧
      (Parse "magnet:?xt=a".toList).2 ≠ some (.missingSchema magnetURISchema) :=
  ⟨(parse_missingSchema_spec "x".toList).1 (by decide),
    (parse_missingSchema_spec "magnet:?xt=a".toList).2 (by decide) magnetURISchema⟩

/-! ## Parser: fragment-by-fragment characterization of the loop -/

/-- The accumulating URI only affects a successful fragment's output by
prefixing its own parameters; errors are independent of the accumulator. -/
theorem parseParameter_shift (fragment : Str) (uri : MagnetURI) :
    parseParameter fragment uri =
      (match parseParameter fragment ⟨[]⟩ with
        | .ok u => Except.ok ⟨uri.Parameters ++ u.Parameters⟩
        | .error e => Except.error e) := by
  unfold parseParameter addParameterToMagnetURI
  split
  · split
    · rfl
    · split
      · rfl
      · simp
  · rfl

theorem parseParameter_shift_ok (fragment : Str) (uri u : MagnetURI)
    (h : parseParameter fragment ⟨[]⟩ = .ok u) :
    parseParameter fragment uri = .ok ⟨uri.Parameters ++ u.Parameters⟩ := by
  rw [parseParameter_shift fragment uri, h]

theorem parseParameter_shift_err (fragment : Str) (uri : MagnetURI)
    (e : ParseError) (h : parseParameter fragment ⟨[]⟩ = .error e) :
    parseParameter fragment uri = .error e := by
  rw [parseParameter_shift fragment uri, h]

theorem lastFragErr_concat (fs : List Str) (f : Str) :
    lastFragErr (fs ++ [f]) = fragErr f := by
  unfold lastFragErr
  rw [List.getLast?_concat]

theorem validSuffix_concat_ok (fs : List Str) (f : Str) (h : fragOk f = true) :
    validSuffix (fs ++ [f]) = validSuffix fs ++ [f] := by
  unfold validSuffix
  simp [List.takeWhile_cons, h]

theorem validSuffix_concat_bad (fs : List Str) (f : Str) (h : fragOk f = false) :
    validSuffix (fs ++ [f]) = [] := by
  unfold validSuffix
  simp [List.takeWhile_cons, h]

/-- The parse loop, characterized: the resulting URI holds exactly the
parameters of the longest all-valid suffix of fragments, and the error is
the last fragment's alone. -/
theorem parseParameters_eq (fragments : List Str) :
    parseParameters fragments =
      (⟨((validSuffix fragments).map fragParams).flatten⟩, lastFragErr fragments) := by
  induction fragments using List.reverseRecOn with
  | nil => rfl
  | append_singleton fs f ih =>
    unfold parseParameters at ih ⊢
    rw [List.foldl_append, ih]
    cases hp : parseParameter f ⟨[]⟩ with
    | ok u =>
      have hok : fragOk f = true := by unfold fragOk; rw [hp]
      have hparams : fragParams f = u.Parameters := by unfold fragParams; rw [hp]
      have hstep := parseParameter_shift_ok f
        ⟨((validSuffix fs).map fragParams).flatten⟩ u hp
      simp only [List.foldl_cons, List.foldl_nil, hstep]
      rw [validSuffix_concat_ok fs f hok, lastFragErr_concat]
      unfold fragErr
      rw [hp]
      simp [hparams]
    | error e =>
      have hbad : fragOk f = false := by unfold fragOk; rw [hp]
      have hstep := parseParameter_shift_err f
        ⟨((validSuffix fs).map fragParams).flatten⟩ e hp
      simp only [List.foldl_cons, List.foldl_nil, hstep]
      rw [validSuffix_concat_bad fs f hbad, lastFragErr_concat]
      unfold fragErr
      rw [hp]
      simp

theorem hasPfx_nil (s : Str) : hasPfx s [] = true := by
  cases s <;> rfl

theorem hasPfx_append (p s : Str) : hasPfx (p ++ s) p = true := by
  induction p with
  | nil => exact hasPfx_nil s
  | cons c cs ih => simp [hasPfx, ih]

theorem trimPfx_append (p s : Str) : trimPfx (p ++ s) p = s := by
  unfold trimPfx
  rw [hasPfx_append]
  simp [List.drop_left]

/-- C9: for an input that is the schema prefix followed by `&`-separated
fragments, `Parse`'s error is the last fragment's error alone (nil when
the last fragment is valid, even if earlier fragments were invalid), and
the returned URI holds exactly the parameters of the longest all-valid
suffix of the fragments, in encounter order. -/
theorem parse_last_fragment_wins (s : Str) :
    Parse (magnetURISchema ++ s) =
      (⟨((validSuffix (splitOnChar '&' s)).map fragParams).flatten⟩,
        lastFragErr (splitOnChar '&' s)) := by
  unfold Parse
  rw [hasPfx_append]
  simp only [if_true]
  rw [trimPfx_append]
  exact parseParameters_eq (splitOnChar '&' s)

/-- C9 witness: the characterization applied at `magnet:?bad&xt=a`. -/
theorem parse_last_fragment_wins_witness :
    Parse (magnetURISchema ++ "bad&xt=a".toList) =
      (⟨((validSuffix (splitOnChar '&' "bad&xt=a".toList)).map fragParams).flatten⟩,
        lastFragErr (splitOnChar '&' "bad&xt=a".toList)) :=
  parse_last_fragment_wins "bad&xt=a".toList

/-! ## Decimal rendering round-trips through atoi -/

theorem parseDigitsAux_append (s t : Str) (acc : Nat) :
    parseDigitsAux (s ++ t) acc =
      (parseDigitsAux s acc).bind (fun a => parseDigitsAux t a) := by
  induction s generalizing acc with
  | nil => rfl
  | cons c cs ih =>
    cases hc : c.isDigit
    · simp [parseDigitsAux, hc]
    · simp [parseDigitsAux, hc, ih]

theorem parseDigitsAux_single (d acc : Nat) (hd : d < 10) :
    parseDigitsAux [Char.ofNat (48 + d)] acc = some (acc * 10 + d) := by
  interval_cases d <;> rfl

theorem parseDigitsAux_natDigitsAux (fuel : Nat) :
    ∀ n acc, n < fuel →
      parseDigitsAux (natDigitsAux fuel n) acc =
        some (acc * 10 ^ (natDigitsAux fuel n).length + n) := by
  induction fuel with
  | zero => intro n acc h; omega
  | succ fuel ih =>
    intro n acc h
    by_cases h10 : n < 10
    · simp only [natDigitsAux, if_pos h10]
      rw [parseDigitsAux_single n acc h10]
      simp
    · simp only [natDigitsAux, if_neg h10]
      rw [parseDigitsAux_append]
      have hdiv : n / 10 < fuel := by
        have h1 : n / 10 < n := Nat.div_lt_self (by omega) (by omega)
        omega
      rw [ih (n / 10) acc hdiv]
      simp only [Option.some_bind]
      rw [parseDigitsAux_single (n % 10) _ (Nat.mod_lt n (by omega))]
      congr 1
      have hmod : 10 * (n / 10) + n % 10 = n := Nat.div_add_mod n 10
      have hlen : (natDigitsAux fuel (n / 10) ++ [Char.ofNat (48 + n % 10)]).length
          = (natDigitsAux fuel (n / 10)).length + 1 := by simp
      rw [hlen, pow_succ]
      calc (acc * 10 ^ (natDigitsAux fuel (n / 10)).length + n / 10) * 10 + n % 10
          = acc * (10 ^ (natDigitsAux fuel (n / 10)).length * 10) +
              (10 * (n / 10) + n % 10) := by ring
        _ = acc * (10 ^ (natDigitsAux fuel (n / 10)).length * 10) + n := by
              rw [hmod]

theorem natDigitsAux_head (fuel : Nat) :
    ∀ n, n < fuel →
      ∃ d cs, d < 10 ∧ natDigitsAux fuel n = Char.ofNat (48 + d) :: cs := by
  induction fuel with
  | zero => intro n h; omega
  | succ fuel ih =>
    intro n h
    by_cases h10 : n < 10
    · exact ⟨n, [], h10, by simp [natDigitsAux, h10]⟩
    · have hdiv : n / 10 < fuel := by
        have h1 : n / 10 < n := Nat.div_lt_self (by omega) (by omega)
        omega
      obtain ⟨d, cs, hd, hcons⟩ := ih (n / 10) hdiv
      exact ⟨d, cs ++ [Char.ofNat (48 + n % 10)], hd, by
        simp [natDigitsAux, h10, hcons]⟩

theorem natDigitsAux_mem (fuel : Nat) :
    ∀ n c, c ∈ natDigitsAux fuel n →
      ∃ d, d < 10 ∧ c = Char.ofNat (48 + d) := by
  induction fuel with
  | zero => intro n c h; simp [natDigitsAux] at h
  | succ fuel ih =>
    intro n c h
    by_cases h10 : n < 10
    · simp only [natDigitsAux, if_pos h10, List.mem_singleton] at h
      exact ⟨n, h10, h⟩
    · simp only [natDigitsAux, if_neg h10, List.mem_append,
        List.mem_singleton] at h
      rcases h with h | h
      · exact ih (n / 10) c h
      · exact ⟨n % 10, Nat.mod_lt n (by omega), h⟩

theorem atoi_cons_digit (d : Nat) (hd : d < 10) (cs : Str) :
    atoi (Char.ofNat (48 + d) :: cs) =
      (parseDigitsAux (Char.ofNat (48 + d) :: cs) 0).bind
        (fun n => if n ≤ maxInt64 then some (n : Int) else none) := by
  interval_cases d <;> rfl

theorem atoi_natDigits (n : Nat) (hn : n ≤ maxInt64) :
    atoi (natDigits n) = some (n : Int) := by
  obtain ⟨d, cs, hd, hcons⟩ := natDigitsAux_head (n + 1) n (Nat.lt_succ_self n)
  have hdig : parseDigitsAux (natDigitsAux (n + 1) n) 0 = some n := by
    have h := parseDigitsAux_natDigitsAux (n + 1) n 0 (Nat.lt_succ_self n)
    simpa using h
  unfold natDigits
  rw [hcons]
  rw [atoi_cons_digit d hd cs]
  rw [hcons] at hdig
  rw [hdig]
  simp only [Option.some_bind]
  rw [if_pos hn]

theorem atoi_intRepr (i : Int) (hlo : -9223372036854775808 ≤ i)
    (hhi : i ≤ 9223372036854775807) : atoi (intRepr i) = some i := by
  unfold intRepr
  by_cases hi : i < 0
  · rw [if_pos hi]
    obtain ⟨d, cs, hd, hcons⟩ :=
      natDigitsAux_head ((-i).toNat + 1) (-i).toNat (Nat.lt_succ_self _)
    have hdig : parseDigitsAux (natDigitsAux ((-i).toNat + 1) (-i).toNat) 0 =
        some (-i).toNat := by
      have h := parseDigitsAux_natDigitsAux ((-i).toNat + 1) (-i).toNat 0
        (Nat.lt_succ_self _)
      simpa using h
    unfold natDigits
    rw [hcons] at hdig ⊢
    have hred : atoi ('-' :: Char.ofNat (48 + d) :: cs) =
        (parseDigitsAux (Char.ofNat (48 + d) :: cs) 0).bind
          (fun n => if n ≤ maxInt64 + 1 then some (-(n : Int)) else none) := by
      interval_cases d <;> rfl
    rw [hred, hdig]
    simp only [Option.some_bind]
    have hbound : (-i).toNat ≤ maxInt64 + 1 := by
      unfold maxInt64
      omega
    rw [if_pos hbound]
    have hti : (((-i).toNat : Int)) = -i := by omega
    simp [hti]
  · rw [if_neg hi]
    rw [atoi_natDigits i.toNat (by unfold maxInt64; omega)]
    congr 1
    omega

theorem natDigits_chars (n : Nat) (c : Char) (hc : c ∈ natDigits n) :
    48 ≤ c.toNat ∧ c.toNat ≤ 57 := by
  obtain ⟨d, hd, rfl⟩ := natDigitsAux_mem (n + 1) n c hc
  interval_cases d <;> exact ⟨by decide, by decide⟩

theorem intRepr_chars (i : Int) (c : Char) (hc : c ∈ intRepr i) :
    c = '-' ∨ (48 ≤ c.toNat ∧ c.toNat ≤ 57) := by
  unfold intRepr at hc
  by_cases hi : i < 0
  · rw [if_pos hi] at hc
    rcases List.mem_cons.mp hc with h | h
    · exact Or.inl h
    · exact Or.inr (natDigits_chars _ c h)
  · rw [if_neg hi] at hc
    exact Or.inr (natDigits_chars _ c hc)

theorem not_mem_intRepr (i : Int) (c : Char) (h1 : c ≠ '-')
    (h2 : ¬(48 ≤ c.toNat ∧ c.toNat ≤ 57)) : c ∉ intRepr i := by
  intro hc
  rcases intRepr_chars i c hc with h | h
  · exact h1 h
  · exact h2 h

/-! ## Round-trip through the serializer and the parser -/

theorem isValidPfx_cases (pfx : Str) (h : isValidPfx pfx = true) :
    pfx = exactTopicPfx ∨ pfx = displayNamePfx ∨ pfx = keywordTopicPfx ∨
      pfx = manifestTopicPfx := by
  unfold isValidPfx at h
  simp only [Bool.or_eq_true, beq_iff_eq] at h
  tauto

theorem validPfx_no_special (pfx : Str) (h : isValidPfx pfx = true) :
    '=' ∉ pfx ∧ '.' ∉ pfx ∧ '&' ∉ pfx := by
  rcases isValidPfx_cases pfx h with h' | h' | h' | h' <;> subst h' <;>
    exact ⟨by decide, by decide, by decide⟩

theorem parseParameter_toStr (p : Parameter) (uri : MagnetURI)
    (hpfx : isValidPfx p.Pfx = true)
    (hrange : -9223372036854775808 ≤ p.Index ∧ p.Index ≤ 9223372036854775807) :
    parseParameter p.toStr uri = .ok ⟨uri.Parameters ++ [p]⟩ := by
  obtain ⟨hEq, hDot, _⟩ := validPfx_no_special p.Pfx hpfx
  rcases p with ⟨pfx, index, value⟩
  simp only at hEq hDot hpfx hrange
  unfold Parameter.toStr
  by_cases hidx : index = 0
  · subst hidx
    simp only [bne_self_eq_false, Bool.false_eq_true, if_false]
    have hsp := splitPfxIndex_no_dot pfx hDot
    simp only [parseParameter, splitN2_append '=' pfx value hEq, hsp,
      addParameterToMagnetURI, hpfx, Bool.not_true, Bool.false_eq_true,
      if_false]
  · have hne : (index != 0) = true := by simpa using hidx
    rw [hne]
    simp only [if_true]
    have hEqKey : '=' ∉ pfx ++ '.' :: intRepr index := by
      intro hc
      rcases List.mem_append.mp hc with h | h
      · exact hEq h
      · rcases List.mem_cons.mp h with h | h
        · exact absurd h (by decide)
        · exact not_mem_intRepr index '=' (by decide) (by decide) h
    have hsp2 : splitPfxIndex (pfx ++ '.' :: intRepr index) =
        Except.ok (pfx, index) := by
      rw [splitPfxIndex_dotted pfx (intRepr index) hDot,
        atoi_intRepr index hrange.1 hrange.2]
    simp only [parseParameter,
      splitN2_append '=' (pfx ++ '.' :: intRepr index) value hEqKey, hsp2,
      addParameterToMagnetURI, hpfx, Bool.not_true, Bool.false_eq_true,
      if_false]

theorem toStr_no_amp (p : Parameter) (hpfx : isValidPfx p.Pfx = true)
    (hval : '&' ∉ p.Value) : '&' ∉ p.toStr := by
  obtain ⟨_, _, hAmp⟩ := validPfx_no_special p.Pfx hpfx
  rcases p with ⟨pfx, index, value⟩
  simp only at hAmp hval
  unfold Parameter.toStr
  by_cases hidx : (index != 0) = true
  · rw [hidx]
    simp only [if_true]
    intro hc
    rcases List.mem_append.mp hc with h | h
    · rcases List.mem_append.mp h with h | h
      · exact hAmp h
      · rcases List.mem_cons.mp h with h | h
        · exact absurd h (by decide)
        · exact not_mem_intRepr index '&' (by decide) (by decide) h
    · rcases List.mem_cons.mp h with h | h
      · exact absurd h (by decide)
      · exact hval h
  · rw [Bool.not_eq_true] at hidx
    rw [hidx]
    simp only [Bool.false_eq_true, if_false]
    intro hc
    rcases List.mem_append.mp hc with h | h
    · exact hAmp h
    · rcases List.mem_cons.mp h with h | h
      · exact absurd h (by decide)
      · exact hval h

theorem splitOnChar_joinAmp (frags : List Str) (hne : frags ≠ [])
    (hno : ∀ f ∈ frags, '&' ∉ f) :
    splitOnChar '&' (joinAmp frags) = frags := by
  induction frags with
  | nil => exact absurd rfl hne
  | cons f fs ih =>
    cases fs with
    | nil =>
      simp only [joinAmp]
      exact splitOnChar_not_mem '&' f (hno f (by simp))
    | cons g gs =>
      have h1 : joinAmp (f :: g :: gs) = f ++ '&' :: joinAmp (g :: gs) := rfl
      rw [h1, splitOnChar_append '&' f _ (hno f (by simp))]
      rw [ih (by simp) (fun x hx => hno x (by simp [hx]))]

theorem parseParameters_fold_aux (ps : List Parameter) :
    ∀ (uri : MagnetURI), (∀ p ∈ ps, isValidPfx p.Pfx = true) →
      (∀ p ∈ ps,
        -9223372036854775808 ≤ p.Index ∧ p.Index ≤ 9223372036854775807) →
      (ps.map Parameter.toStr).foldl
        (fun acc parameter =>
          match parseParameter parameter acc.1 with
          | .ok u => (u, none)
          | .error e => (⟨[]⟩, some e)) (uri, none) =
      (⟨uri.Parameters ++ ps⟩, none) := by
  induction ps with
  | nil => intro uri _ _; simp
  | cons p rest ih =>
    intro uri hpfx hrange
    have hp := parseParameter_toStr p uri (hpfx p (by simp))
      (hrange p (by simp))
    simp only [List.map_cons, List.foldl_cons, hp]
    rw [ih ⟨uri.Parameters ++ [p]⟩ (fun q hq => hpfx q (by simp [hq]))
      (fun q hq => hrange q (by simp [hq]))]
    simp

theorem parseParameters_map_toStr (ps : List Parameter)
    (hpfx : ∀ p ∈ ps, isValidPfx p.Pfx = true)
    (hrange : ∀ p ∈ ps,
      -9223372036854775808 ≤ p.Index ∧ p.Index ≤ 9223372036854775807) :
    parseParameters (ps.map Parameter.toStr) = (⟨ps⟩, none) := by
  unfold parseParameters
  simpa using parseParameters_fold_aux ps ⟨[]⟩ hpfx hrange

theorem mem_parametersByPfx (u : MagnetURI) (p : Parameter)
    (hp : p ∈ u.Parameters) : p ∈ u.parametersByPfx p.Pfx := by
  unfold MagnetURI.parametersByPfx
  simp [List.mem_filter, hp]

/-- C5 (amended): round-trip holds for every URI with at least one
parameter, provided every stored prefix is one of the four recognized
tokens and no stored value contains the separator `&`; without those
provisos serialization or reparsing can fail (see `roundtrip_cex`).  The
index-range hypothesis encodes that each stored index is a value of Go's
64-bit `int`, which is automatic for every Go-constructed `Parameter`
but not for the unbounded `Int` of the model. -/
theorem parse_toStr_roundtrip (u : MagnetURI)
    (hne : u.Parameters ≠ [])
    (hpfx : ∀ p ∈ u.Parameters, isValidPfx p.Pfx = true)
    (hval : ∀ p ∈ u.Parameters, '&' ∉ p.Value)
    (hrange : ∀ p ∈ u.Parameters,
      -9223372036854775808 ≤ p.Index ∧ p.Index ≤ 9223372036854775807) :
    u.toStr.2 = none ∧ MagnetURI.Equal (Parse u.toStr.1).1 u = true := by
  have hhas : u.hasParameters = true := by
    cases hb : u.hasParameters
    · exfalso
      obtain ⟨h1, h2, h3, h4⟩ := (hasParameters_false_iff u).mp hb
      obtain ⟨p, hp⟩ := List.exists_mem_of_ne_nil u.Parameters hne
      have hmem := mem_parametersByPfx u p hp
      rcases isValidPfx_cases p.Pfx (hpfx p hp) with hx | hx | hx | hx <;>
        rw [hx] at hmem
      · unfold MagnetURI.exactTopics at h1; rw [h1] at hmem; simp at hmem
      · unfold MagnetURI.displayNames at h2; rw [h2] at hmem; simp at hmem
      · unfold MagnetURI.keywordTopics at h3; rw [h3] at hmem; simp at hmem
      · unfold MagnetURI.manifestTopics at h4; rw [h4] at hmem; simp at hmem
    · rfl
  rw [toStr_spec u hhas]
  refine ⟨rfl, ?_⟩
  have hfragsne : u.Parameters.map Parameter.toStr ≠ [] := by
    simpa using hne
  have hnoamp : ∀ f ∈ u.Parameters.map Parameter.toStr, '&' ∉ f := by
    intro f hf
    obtain ⟨p, hp, rfl⟩ := List.mem_map.mp hf
    exact toStr_no_amp p (hpfx p hp) (hval p hp)
  unfold Parse
  rw [hasPfx_append]
  simp only [if_true]
  rw [trimPfx_append]
  rw [splitOnChar_joinAmp _ hfragsne hnoamp]
  rw [parseParameters_map_toStr u.Parameters hpfx hrange]
  exact compareParameters_self u.Parameters

/-- C5 witness: the round trip applied at a concrete two-parameter URI. -/
theorem parse_toStr_roundtrip_witness :
    (MagnetURI.toStr
        ⟨[⟨"xt".toList, 1, "A".toList⟩, ⟨"dn".toList, 0, "B".toList⟩]⟩).2 =
        none ∧
      MagnetURI.Equal
        (Parse (MagnetURI.toStr
          ⟨[⟨"xt".toList, 1, "A".toList⟩, ⟨"dn".toList, 0, "B".toList⟩]⟩).1).1
        ⟨[⟨"xt".toList, 1, "A".toList⟩, ⟨"dn".toList, 0, "B".toList⟩]⟩ = true :=
  parse_toStr_roundtrip
    ⟨[⟨"xt".toList, 1, "A".toList⟩, ⟨"dn".toList, 0, "B".toList⟩]⟩
    (by decide) (by decide) (by decide) (by decide)

/-- The model keeps Go's 64-bit range failure: a 20-digit index exceeds
`math.MaxInt64`, so `strconv.Atoi` rejects it with `ErrRange` and the
fragment fails with the invalid-index error. -/
theorem parse_rejects_out_of_range_index :
    Parse "magnet:?xt.99999999999999999999=v".toList =
      (⟨[]⟩,
        some (.wrongParameterPfx [] "99999999999999999999".toList)) := by
  decide

/-- C5 counterexample: a URI whose single parameter's value contains `&`
serializes fine, but reparsing the result fails, so the round trip is
violated for a URI with at least one parameter. -/
theorem roundtrip_cex :
    MagnetURI.toStr ⟨[⟨"xt".toList, 0, "a&b".toList⟩]⟩ =
        ("magnet:?xt=a&b".toList, none) ∧
      MagnetURI.Equal (Parse "magnet:?xt=a&b".toList).1
        ⟨[⟨"xt".toList, 0, "a&b".toList⟩]⟩ = false ∧
      (Parse "magnet:?xt=a&b".toList).2 ≠ none := by decide

/-! ## The non-atomic parse loop observed end to end -/

/-- C1: parsing is not atomic: on `magnet:?bad&xt=a` the invalid first
fragment's error is discarded, because the valid final fragment
overwrites it, and Parse returns a nil error together with one
accumulated parameter. -/
theorem parse_not_atomic_at_failing_input :
    Parse "magnet:?bad&xt=a".toList =
      (⟨[⟨"xt".toList, 0, "a".toList⟩]⟩, none) := by decide

/-- C2: Parse succeeds (nil error) on `magnet:?zz=v&xt=a` although the
input contains the fragment `zz=v` whose prefix token `zz` is outside
the recognized set. -/
theorem parse_succeeds_despite_unknown_pfx :
    Parse "magnet:?zz=v&xt=a".toList =
      (⟨[⟨"xt".toList, 0, "a".toList⟩]⟩, none) ∧
      isValidPfx "zz".toList = false := by decide

end MagnetUri
